import Mathlib

/-!
Verification of the klpbbs_levels EXP↔level core.

The repository computes a forum level (1–50) from an experience value via
`exp_to_level` and the inverse `level_to_min_exp` (src/core/query.py), and
aggregates a table of (EXP-range label, count) rows into a per-level
distribution (src/core/distribution.py).

Modelling conventions:
* numpy float64 arithmetic (`np.log`, `**`, `np.exp`) is embedded as exact
  real arithmetic over `ℝ`;
* Python `int(x)` is truncation toward zero (`truncInt`);
* Python `//` is floor division (`Int.fdiv`);
* strings are `List Char`; Python `int(str)` is modelled on bare tokens
  (optional sign followed by decimal digits) as produced by CSV labels;
* a pandas DataFrame of rows is a `List` of tuples, and the Python dict
  (insertion ordered) used for aggregation is an association list.
-/

namespace KlpbbsLevels

open Real

/-- Python `int()` applied to a real value: truncation toward zero. -/
noncomputable def truncInt (x : ℝ) : ℤ := if 0 ≤ x then ⌊x⌋ else ⌈x⌉

/-- The EXP value at which the level saturates to 50
(`exp_cap = 50000` in src/core/query.py, set locally in both
`exp_to_level` and `level_to_min_exp` with the same value). -/
def exp_cap : ℤ := 50000

/-- Shape exponent (`gamma = 3.45` in src/core/query.py, set locally in both
`exp_to_level` and `level_to_min_exp` with the same value). -/
noncomputable def gamma : ℝ := 3.45

/-- Embedding of `exp_to_level` (src/core/query.py, lines 6–30):
clamp negative EXP to 0, return 1 at EXP 0, otherwise
`min(50, int(1 + 49 * (log(exp+1)/log(exp_cap+1))^gamma))`. -/
noncomputable def exp_to_level (exp : ℤ) : ℤ :=
  let e : ℤ := max exp 0
  if e = 0 then 1
  else
    let base : ℝ := Real.log ((e : ℝ) + 1) / Real.log ((exp_cap : ℝ) + 1)
    let scaled : ℝ := base ^ gamma
    let level : ℝ := 1 + 49 * scaled
    min 50 (truncInt level)

/-- Embedding of `level_to_min_exp` (src/core/query.py, lines 46–77):
0 for level ≤ 1, the pinned cap 50000 for level ≥ 50, otherwise
`int(exp((((level-1)/49)^(1/gamma)) * log(exp_cap+1)) - 1)`. -/
noncomputable def level_to_min_exp (level : ℤ) : ℤ :=
  if level ≤ 1 then 0
  else if 50 ≤ level then 50000
  else
    let scaled : ℝ := ((level : ℝ) - 1) / 49
    let base : ℝ := scaled ^ (1 / gamma)
    truncInt (Real.exp (base * Real.log ((exp_cap : ℝ) + 1)) - 1)

/-- Embedding of `get_level_range` (src/core/query.py, lines 80–93); the
Python sentinel `float("inf")` for the top level's upper bound is `⊤` in
`WithTop ℤ`. -/
noncomputable def get_level_range (level : ℤ) : ℤ × WithTop ℤ :=
  (level_to_min_exp level,
    if level < 50 then ((level_to_min_exp (level + 1) - 1 : ℤ) : WithTop ℤ) else ⊤)

/-! Basic facts about the embedded real arithmetic. -/

lemma truncInt_of_nonneg {x : ℝ} (hx : 0 ≤ x) : truncInt x = ⌊x⌋ := if_pos hx

lemma gamma_pos : (0 : ℝ) < gamma := by norm_num [gamma]

lemma one_le_gamma : (1 : ℝ) ≤ gamma := by norm_num [gamma]

lemma log_cap_pos : (0 : ℝ) < Real.log ((exp_cap : ℝ) + 1) := by
  apply Real.log_pos
  norm_num [exp_cap]

/-- For a positive clamped EXP the general-formula branch is taken and the
truncation is a floor (the argument is ≥ 1). -/
lemma exp_to_level_of_one_le {e : ℤ} (he : 1 ≤ e) :
    exp_to_level e =
      min 50 ⌊1 + 49 * (Real.log ((e : ℝ) + 1) / Real.log ((exp_cap : ℝ) + 1)) ^ gamma⌋ := by
  have hmax : max e 0 = e := max_eq_left (by omega)
  have hne : ¬ (max e 0 = 0) := by omega
  have hbase : 0 ≤ Real.log ((e : ℝ) + 1) / Real.log ((exp_cap : ℝ) + 1) := by
    apply div_nonneg _ log_cap_pos.le
    apply Real.log_nonneg
    have : (1 : ℝ) ≤ (e : ℝ) := by exact_mod_cast he
    linarith
  have hlvl : (0 : ℝ) ≤ 1 + 49 * (Real.log ((e : ℝ) + 1) / Real.log ((exp_cap : ℝ) + 1)) ^ gamma := by
    have := Real.rpow_nonneg hbase gamma
    linarith
  simp only [exp_to_level, hmax, if_neg hne]
  rw [truncInt_of_nonneg hlvl, if_neg (show ¬ e = 0 by omega)]

/-- Every value of exp_to_level is at least 1. -/
lemma one_le_exp_to_level (e : ℤ) : 1 ≤ exp_to_level e := by
  rcases le_or_lt e 0 with he | he
  · have hmax : max e 0 = 0 := max_eq_right he
    simp [exp_to_level, hmax]
  · rw [exp_to_level_of_one_le he]
    refine le_min (by norm_num) ?_
    rw [Int.le_floor]
    have hbase : 0 ≤ Real.log ((e : ℝ) + 1) / Real.log ((exp_cap : ℝ) + 1) := by
      apply div_nonneg _ log_cap_pos.le
      apply Real.log_nonneg
      have : (1 : ℝ) ≤ (e : ℝ) := by exact_mod_cast he
      linarith
    have := Real.rpow_nonneg hbase gamma
    push_cast
    linarith

/-! C4: boundary values of the inverse mapping. -/

/-- C4: `level_to_min_exp 1 = 0` and `level_to_min_exp 50 = 50000`; more
generally every level ≤ 1 gives 0 and every level ≥ 50 gives exactly the
configured cap 50000. -/
theorem C4_level_to_min_exp_boundaries :
    level_to_min_exp 1 = 0 ∧ level_to_min_exp 50 = 50000 ∧
      (∀ l : ℤ, l ≤ 1 → level_to_min_exp l = 0) ∧
      (∀ l : ℤ, 50 ≤ l → level_to_min_exp l = 50000) := by
  refine ⟨?_, ?_, ?_, ?_⟩
  · simp [level_to_min_exp]
  · simp [level_to_min_exp]
  · intro l hl
    simp [level_to_min_exp, hl]
  · intro l hl
    have h1 : ¬ l ≤ 1 := by omega
    simp [level_to_min_exp, h1, hl]

/-- Witness for C4 at concrete levels 0 and 51. -/
theorem C4_level_to_min_exp_boundaries_witness :
    level_to_min_exp 0 = 0 ∧ level_to_min_exp 51 = 50000 :=
  ⟨C4_level_to_min_exp_boundaries.2.2.1 0 (by norm_num),
   C4_level_to_min_exp_boundaries.2.2.2 51 (by norm_num)⟩

/-! C5: the range resolver. -/

/-- C5: for levels 1–49 `get_level_range` returns
`(level_to_min_exp L, level_to_min_exp (L+1) - 1)`, and at level 50 the
lower bound is `level_to_min_exp 50` with the unbounded sentinel above. -/
theorem C5_get_level_range (L : ℤ) (h1 : 1 ≤ L) (h49 : L ≤ 49) :
    get_level_range L = (level_to_min_exp L, ((level_to_min_exp (L + 1) - 1 : ℤ) : WithTop ℤ)) ∧
      get_level_range 50 = (level_to_min_exp 50, (⊤ : WithTop ℤ)) := by
  constructor
  · have : L < 50 := by omega
    simp [get_level_range, this]
  · simp [get_level_range]

/-- Witness for C5 at level 1. -/
theorem C5_get_level_range_witness :
    get_level_range 1 = (level_to_min_exp 1, ((level_to_min_exp 2 - 1 : ℤ) : WithTop ℤ)) ∧
      get_level_range 50 = (level_to_min_exp 50, (⊤ : WithTop ℤ)) :=
  C5_get_level_range 1 (by norm_num) (by norm_num)

/-! C1: monotonicity of the forward mapping. -/

/-- C1: the forward EXP-to-level mapping is monotonic non-decreasing. -/
theorem C1_exp_to_level_mono (e1 e2 : ℤ) (h : e1 ≤ e2) :
    exp_to_level e1 ≤ exp_to_level e2 := by
  rcases le_or_lt e1 0 with h1 | h1
  · have he1 : exp_to_level e1 = 1 := by
      simp [exp_to_level, max_eq_right h1]
    rw [he1]
    exact one_le_exp_to_level e2
  · have h2 : (1 : ℤ) ≤ e2 := by omega
    rw [exp_to_level_of_one_le h1, exp_to_level_of_one_le h2]
    refine min_le_min le_rfl (Int.floor_le_floor ?_)
    have ha1 : (1 : ℝ) ≤ (e1 : ℝ) := by exact_mod_cast h1
    have hab : (e1 : ℝ) ≤ (e2 : ℝ) := by exact_mod_cast h
    have hlog : Real.log ((e1 : ℝ) + 1) ≤ Real.log ((e2 : ℝ) + 1) :=
      (Real.log_le_log_iff (by linarith) (by linarith)).mpr (by linarith)
    have hx0 : 0 ≤ Real.log ((e1 : ℝ) + 1) / Real.log ((exp_cap : ℝ) + 1) :=
      div_nonneg (Real.log_nonneg (by linarith)) log_cap_pos.le
    have hxy : Real.log ((e1 : ℝ) + 1) / Real.log ((exp_cap : ℝ) + 1)
        ≤ Real.log ((e2 : ℝ) + 1) / Real.log ((exp_cap : ℝ) + 1) := by
      gcongr
      exact log_cap_pos.le
    have hr := Real.rpow_le_rpow hx0 hxy gamma_pos.le
    linarith

/-- Witness for C1 at the concrete pair (3, 5). -/
theorem C1_exp_to_level_mono_witness : exp_to_level 3 ≤ exp_to_level 5 :=
  C1_exp_to_level_mono 3 5 (by norm_num)

/-! C3: saturation of the forward mapping at the cap. -/

/-- C3: for every EXP at or above the configured cap 50000 the forward
mapping returns exactly 50. -/
theorem C3_exp_to_level_saturates (e : ℤ) (h : 50000 ≤ e) : exp_to_level e = 50 := by
  have h1 : (1 : ℤ) ≤ e := by omega
  rw [exp_to_level_of_one_le h1]
  have he : (50000 : ℝ) ≤ (e : ℝ) := by exact_mod_cast h
  have hcap : Real.log ((exp_cap : ℝ) + 1) ≤ Real.log ((e : ℝ) + 1) := by
    apply (Real.log_le_log_iff (by norm_num [exp_cap]) (by linarith)).mpr
    simp only [exp_cap]
    push_cast
    linarith
  have hbase1 : (1 : ℝ) ≤ Real.log ((e : ℝ) + 1) / Real.log ((exp_cap : ℝ) + 1) :=
    (one_le_div log_cap_pos).mpr hcap
  have hscaled : (1 : ℝ) ≤ (Real.log ((e : ℝ) + 1) / Real.log ((exp_cap : ℝ) + 1)) ^ gamma := by
    calc (1 : ℝ) = (1 : ℝ) ^ gamma := (Real.one_rpow gamma).symm
    _ ≤ _ := Real.rpow_le_rpow (by norm_num) hbase1 gamma_pos.le
  have hfloor : (50 : ℤ) ≤ ⌊(1 : ℝ) + 49 * (Real.log ((e : ℝ) + 1) / Real.log ((exp_cap : ℝ) + 1)) ^ gamma⌋ := by
    rw [Int.le_floor]
    push_cast
    linarith
  exact min_eq_left hfloor

/-- Witness for C3: the cap itself maps to level 50. -/
theorem C3_exp_to_level_saturates_witness : exp_to_level 50000 = 50 :=
  C3_exp_to_level_saturates 50000 le_rfl

/-! Embedding of src/core/distribution.py. -/

/-- Decimal value of a digit string (most significant digit first), as
accumulated by Python `int()` on a digit-only token. -/
def digitsVal (s : List Char) : ℤ := s.foldl (fun a c => 10 * a + ((c.toNat : ℤ) - 48)) 0

/-- All characters are decimal digits. -/
def allDigits (s : List Char) : Bool := s.all (fun c => c.isDigit)

/-- The ASCII whitespace characters Python `int()` strips from both ends
of its argument: TAB (9) through CR (13), the separator controls FS–US
(28–31), and space (32). (`int()` additionally strips non-ASCII Unicode
whitespace and accepts non-ASCII Unicode decimal digits; the theorems
below that assert a parse failure therefore restrict their bad-character
hypotheses to ASCII characters.) -/
def isPySpace (c : Char) : Bool :=
  c = '\x09' || c = '\x0a' || c = '\x0b' || c = '\x0c' || c = '\x0d' ||
    c = '\x1c' || c = '\x1d' || c = '\x1e' || c = '\x1f' || c = ' '

/-- Strip Python whitespace from both ends of a token. -/
def stripSpaces (s : List Char) : List Char :=
  ((s.dropWhile isPySpace).reverse.dropWhile isPySpace).reverse

/-- Continuation of Python's digitpart after its leading digit: digits,
with a single underscore allowed only between two digits. The flag records
whether an underscore is pending and must be followed by a digit. -/
def digitsTailAux : Bool → List Char → Bool
  | pending, [] => !pending
  | pending, c :: rest =>
    if c = '_' then !pending && digitsTailAux true rest
    else c.isDigit && digitsTailAux false rest

/-- Python's digitpart grammar for `int()` literals:
`digit (["_"] digit)*`. -/
def digitsPart (s : List Char) : Bool :=
  match s with
  | [] => false
  | c :: rest => c.isDigit && digitsTailAux false rest

/-- The digits of a token with its underscore separators removed (the
value Python assembles). -/
def dropUnderscores (s : List Char) : List Char := s.filter (fun c => c != '_')

/-- Model of Python `int(str)`: strip whitespace from both ends, then an
optional sign followed by a digitpart (digits with underscore separators
between digits) succeeds, anything else raises (`none`). -/
def pyParseInt (s : List Char) : Option ℤ :=
  match stripSpaces s with
  | [] => none
  | c :: rest =>
    if c = '-' then
      if digitsPart rest then some (-(digitsVal (dropUnderscores rest))) else none
    else if c = '+' then
      if digitsPart rest then some (digitsVal (dropUnderscores rest)) else none
    else
      if digitsPart (c :: rest) then some (digitsVal (dropUnderscores (c :: rest))) else none

/-- Python `str.split("-")`: the segments between the dashes (a dash at
either end or two adjacent dashes produce empty segments). -/
def splitDash : List Char → List (List Char)
  | [] => [[]]
  | c :: rest =>
    if c = '-' then [] :: splitDash rest
    else
      match splitDash rest with
      | [] => [[c]]
      | p :: ps => (c :: p) :: ps

/-- The tuple unpacking `min_exp, max_exp = map(int, exp_group.split("-"))`
inside the `try` of parse_exp_range: it produces a pair only when the split
gave exactly two parseable integers; every other shape raises (wrong
unpacking arity or a failing `int()`) and the bare `except` of
parse_exp_range returns the fallback (0, 0). -/
def unpackTwo : List (Option ℤ) → ℤ × ℤ
  | [some a, some b] => (a, b)
  | _ => (0, 0)

/-- Embedding of `parse_exp_range` (src/core/distribution.py, lines 31–50). -/
def parse_exp_range (g : List Char) : ℤ × ℤ :=
  if '-' ∈ g then unpackTwo ((splitDash g).map pyParseInt)
  else
    match pyParseInt g with
    | some n => (n, n)
    | none => (0, 0)

/-- The range midpoint used by calculate_level_distribution:
`(min_exp + max_exp) // 2` with Python floor division. -/
def rowMid (g : List Char) : ℤ :=
  ((parse_exp_range g).1 + (parse_exp_range g).2).fdiv 2

/-- The level a row's count is attributed to in
calculate_level_distribution: the forward mapping at the range midpoint. -/
noncomputable def rowLevel (g : List Char) : ℤ := exp_to_level (rowMid g)

/-- `level_distribution[level] += count` on an insertion-ordered Python
dict, modelled as an association list: an existing key keeps its position
and accumulates, a new key is appended. -/
def addCount : List (ℤ × ℤ) → ℤ → ℤ → List (ℤ × ℤ)
  | [], k, v => [(k, v)]
  | p :: rest, k, v =>
    if p.1 = k then (p.1, p.2 + v) :: rest else p :: addCount rest k v

/-- The aggregation loop of calculate_level_distribution over the input
rows (exp_group label, count). -/
noncomputable def buildDist (rows : List (List Char × ℤ)) : List (ℤ × ℤ) :=
  rows.foldl (fun d r => addCount d (rowLevel r.1) r.2) []

/-- One insertion step of sorting the dict items; `sorted` on (level,
count) tuples orders by level first, and the dict keys are distinct, so
comparing keys is enough. -/
def insertRow (r : ℤ × ℤ) : List (ℤ × ℤ) → List (ℤ × ℤ)
  | [] => [r]
  | s :: rest => if r.1 ≤ s.1 then r :: s :: rest else s :: insertRow r rest

/-- `sorted(level_distribution.items())` as an insertion sort on the
association list. -/
def sortRows : List (ℤ × ℤ) → List (ℤ × ℤ)
  | [] => []
  | r :: rest => insertRow r (sortRows rest)

/-- numpy/pandas `.round` ties-to-even at integer resolution. -/
noncomputable def roundHalfEven (x : ℝ) : ℤ :=
  if Int.fract x = 1 / 2 then (if Even ⌊x⌋ then ⌊x⌋ else ⌊x⌋ + 1) else round x

/-- pandas `.round(2)`. -/
noncomputable def pandasRound2 (x : ℝ) : ℝ := (roundHalfEven (x * 100) : ℝ) / 100

/-- One output row of calculate_level_distribution
(columns level, user_count, percentage). -/
structure DistRow where
  level : ℤ
  user_count : ℤ
  percentage : ℝ

/-- Embedding of `calculate_level_distribution`
(src/core/distribution.py, lines 53–92): aggregate each row's count at the
level of its parsed range midpoint, emit the dict items sorted by level,
and attach the percentage column computed from the aggregated total. -/
noncomputable def calculate_level_distribution (rows : List (List Char × ℤ)) : List DistRow :=
  let items := sortRows (buildDist rows)
  let total : ℤ := (items.map Prod.snd).sum
  items.map (fun p => ⟨p.1, p.2, pandasRound2 ((p.2 : ℝ) / (total : ℝ) * 100)⟩)

/-! Aggregation lemmas for the distribution claims. -/

lemma addCount_sum (d : List (ℤ × ℤ)) (k v : ℤ) :
    ((addCount d k v).map Prod.snd).sum = (d.map Prod.snd).sum + v := by
  induction d with
  | nil => simp [addCount]
  | cons p rest ih =>
    by_cases h : p.1 = k
    · simp only [addCount, if_pos h, List.map_cons, List.sum_cons]
      ring
    · simp only [addCount, if_neg h, List.map_cons, List.sum_cons, ih]
      ring

lemma foldl_addCount_sum (rows : List (List Char × ℤ)) (d : List (ℤ × ℤ)) :
    ((rows.foldl (fun d r => addCount d (rowLevel r.1) r.2) d).map Prod.snd).sum
      = (d.map Prod.snd).sum + (rows.map Prod.snd).sum := by
  induction rows generalizing d with
  | nil => simp
  | cons r rest ih =>
    simp only [List.foldl_cons, ih, addCount_sum, List.map_cons, List.sum_cons]
    ring

lemma insertRow_perm (r : ℤ × ℤ) (l : List (ℤ × ℤ)) :
    List.Perm (insertRow r l) (r :: l) := by
  induction l with
  | nil => exact List.Perm.refl _
  | cons s rest ih =>
    by_cases h : r.1 ≤ s.1
    · simp [insertRow, h]
    · simp only [insertRow, if_neg h]
      exact (ih.cons s).trans (List.Perm.swap r s rest)

lemma sortRows_perm (l : List (ℤ × ℤ)) : List.Perm (sortRows l) l := by
  induction l with
  | nil => exact List.Perm.refl _
  | cons r rest ih => exact (insertRow_perm r (sortRows rest)).trans (ih.cons r)

/-! C7: the aggregator conserves the total count. -/

/-- C7: for every input table, the sum of user_count over the output rows
of calculate_level_distribution equals the sum of the input counts. -/
theorem C7_distribution_conserves_total (rows : List (List Char × ℤ)) :
    ((calculate_level_distribution rows).map DistRow.user_count).sum
      = (rows.map Prod.snd).sum := by
  unfold calculate_level_distribution
  simp only [List.map_map]
  have hcomp : (DistRow.user_count ∘ fun p : ℤ × ℤ =>
      (⟨p.1, p.2, pandasRound2 ((p.2 : ℝ) / (((sortRows (buildDist rows)).map Prod.snd).sum : ℝ) * 100)⟩ : DistRow))
      = Prod.snd := by
    funext p
    rfl
  rw [hcomp]
  have hperm := (sortRows_perm (buildDist rows)).map Prod.snd
  rw [hperm.sum_eq]
  have := foldl_addCount_sum rows []
  simpa [buildDist] using this

/-! C10: output rows are unique per level and strictly ascending. -/

lemma addCount_keys (d : List (ℤ × ℤ)) (k v : ℤ) :
    (addCount d k v).map Prod.fst =
      if k ∈ d.map Prod.fst then d.map Prod.fst else d.map Prod.fst ++ [k] := by
  induction d with
  | nil => simp [addCount]
  | cons p rest ih =>
    by_cases h : p.1 = k
    · simp [addCount, h]
    · have hne : ¬ k = p.1 := fun hk => h hk.symm
      by_cases h2 : k ∈ rest.map Prod.fst
      · simp [addCount, h, ih, h2, hne]
      · simp [addCount, h, ih, h2, hne]

lemma addCount_keys_nodup {d : List (ℤ × ℤ)} (hd : (d.map Prod.fst).Nodup) (k v : ℤ) :
    ((addCount d k v).map Prod.fst).Nodup := by
  rw [addCount_keys]
  by_cases h : k ∈ d.map Prod.fst
  · rwa [if_pos h]
  · rw [if_neg h]
    refine List.Nodup.append hd (List.nodup_singleton k) ?_
    intro a ha hak
    rw [List.mem_singleton] at hak
    exact h (by rwa [hak] at ha)

lemma buildDist_keys_nodup (rows : List (List Char × ℤ)) :
    ((buildDist rows).map Prod.fst).Nodup := by
  have key : ∀ (rs : List (List Char × ℤ)) (d : List (ℤ × ℤ)),
      (d.map Prod.fst).Nodup →
      ((rs.foldl (fun d r => addCount d (rowLevel r.1) r.2) d).map Prod.fst).Nodup := by
    intro rs
    induction rs with
    | nil => intro d hd; exact hd
    | cons r rest ih =>
      intro d hd
      exact ih _ (addCount_keys_nodup hd _ _)
  exact key rows [] (by simp)

lemma mem_insertRow {x r : ℤ × ℤ} {l : List (ℤ × ℤ)} (h : x ∈ insertRow r l) :
    x = r ∨ x ∈ l := by
  induction l with
  | nil => simpa [insertRow] using h
  | cons s rest ih =>
    by_cases hle : r.1 ≤ s.1
    · simpa [insertRow, hle] using h
    · simp only [insertRow, if_neg hle, List.mem_cons] at h
      rcases h with h | h
      · exact Or.inr (by simp [h])
      · rcases ih h with h' | h'
        · exact Or.inl h'
        · exact Or.inr (by simp [h'])

lemma insertRow_sorted {r : ℤ × ℤ} {l : List (ℤ × ℤ)}
    (h : l.Pairwise (fun a b => a.1 ≤ b.1)) :
    (insertRow r l).Pairwise (fun a b : ℤ × ℤ => a.1 ≤ b.1) := by
  induction l with
  | nil => simp [insertRow]
  | cons s rest ih =>
    rw [List.pairwise_cons] at h
    obtain ⟨hs, hrest⟩ := h
    by_cases hle : r.1 ≤ s.1
    · simp only [insertRow, if_pos hle, List.pairwise_cons, List.mem_cons]
      refine ⟨?_, ?_⟩
      · rintro b (rfl | hb)
        · exact hle
        · exact hle.trans (hs b hb)
      · exact ⟨hs, hrest⟩
    · simp only [insertRow, if_neg hle, List.pairwise_cons]
      refine ⟨?_, ih hrest⟩
      intro b hb
      rcases mem_insertRow hb with rfl | hb'
      · exact le_of_not_le hle
      · exact hs b hb'

lemma sortRows_sorted (l : List (ℤ × ℤ)) :
    (sortRows l).Pairwise (fun a b => a.1 ≤ b.1) := by
  induction l with
  | nil => simp [sortRows]
  | cons r rest ih => exact insertRow_sorted ih

lemma pairwise_and {α : Type} {R S : α → α → Prop} {l : List α}
    (h1 : l.Pairwise R) (h2 : l.Pairwise S) :
    l.Pairwise (fun a b => R a b ∧ S a b) := by
  induction l with
  | nil => exact List.Pairwise.nil
  | cons a rest ih =>
    rw [List.pairwise_cons] at h1 h2 ⊢
    exact ⟨fun b hb => ⟨h1.1 b hb, h2.1 b hb⟩, ih h1.2 h2.2⟩

/-- C10: for every input table the output of calculate_level_distribution
has at most one row per level, with rows in strictly ascending level
order. -/
theorem C10_distribution_rows_strictly_ascending (rows : List (List Char × ℤ)) :
    (calculate_level_distribution rows).Pairwise (fun a b => a.level < b.level) := by
  unfold calculate_level_distribution
  have hsorted := sortRows_sorted (buildDist rows)
  have hnodup : ((sortRows (buildDist rows)).map Prod.fst).Nodup :=
    (((sortRows_perm (buildDist rows)).map Prod.fst).nodup_iff).mpr
      (buildDist_keys_nodup rows)
  have hne : (sortRows (buildDist rows)).Pairwise (fun a b : ℤ × ℤ => a.1 ≠ b.1) :=
    (List.pairwise_map.mp hnodup)
  have hlt : (sortRows (buildDist rows)).Pairwise (fun a b : ℤ × ℤ => a.1 < b.1) :=
    (pairwise_and hsorted hne).imp (fun h => lt_of_le_of_ne h.1 h.2)
  exact hlt.map _ (fun a b h => h)

/-! Parsing lemmas for C8 and C9. -/

lemma mem_dropWhile_of_mem {p : Char → Bool} {l : List Char} {c : Char}
    (hc : c ∈ l) (hp : p c = false) : c ∈ l.dropWhile p := by
  induction l with
  | nil => simp at hc
  | cons a rest ih =>
    rw [List.dropWhile_cons]
    by_cases ha : p a = true
    · rw [if_pos ha]
      rcases List.mem_cons.mp hc with rfl | hcr
      · rw [ha] at hp
        exact absurd hp (by simp)
      · exact ih hcr
    · rw [if_neg ha]
      exact hc

/-- A character that is not Python whitespace survives the stripping. -/
lemma mem_stripSpaces_of_mem {s : List Char} {c : Char} (hc : c ∈ s)
    (hsp : isPySpace c = false) : c ∈ stripSpaces s := by
  unfold stripSpaces
  rw [List.mem_reverse]
  apply mem_dropWhile_of_mem _ hsp
  rw [List.mem_reverse]
  exact mem_dropWhile_of_mem hc hsp

lemma digitsTailAux_eq_false {c : Char} (hd : c.isDigit = false) (hu : c ≠ '_') :
    ∀ s : List Char, c ∈ s → ∀ pending, digitsTailAux pending s = false := by
  intro s
  induction s with
  | nil =>
    intro hc
    simp at hc
  | cons a rest ih =>
    intro hc pending
    simp only [digitsTailAux]
    rcases List.mem_cons.mp hc with rfl | hcr
    · rw [if_neg hu]
      simp [hd]
    · by_cases ha : a = '_'
      · rw [if_pos ha, ih hcr true]
        simp
      · rw [if_neg ha, ih hcr false]
        simp

lemma digitsPart_eq_false {s : List Char} {c : Char} (hc : c ∈ s)
    (hd : c.isDigit = false) (hu : c ≠ '_') : digitsPart s = false := by
  cases s with
  | nil => rfl
  | cons a rest =>
    simp only [digitsPart]
    rcases List.mem_cons.mp hc with rfl | hcr
    · simp [hd]
    · rw [digitsTailAux_eq_false hd hu rest hcr false]
      simp

/-- A character that is not a digit, a sign, an underscore, or whitespace
makes Python `int()` fail wherever it sits in the token. -/
lemma pyParseInt_eq_none_of_bad {s : List Char} {c : Char} (hc : c ∈ s)
    (hd : c.isDigit = false) (hm : c ≠ '-') (hp : c ≠ '+') (hu : c ≠ '_')
    (hsp : isPySpace c = false) :
    pyParseInt s = none := by
  have hmem := mem_stripSpaces_of_mem hc hsp
  rcases hstrip : stripSpaces s with _ | ⟨a, rest⟩
  · rw [hstrip] at hmem
    simp at hmem
  · rw [hstrip] at hmem
    simp only [pyParseInt, hstrip]
    rcases List.mem_cons.mp hmem with rfl | hcr
    · rw [if_neg hm, if_neg hp]
      simp [digitsPart_eq_false (List.mem_cons_self c rest) hd hu]
    · by_cases ha : a = '-'
      · rw [if_pos ha]
        simp [digitsPart_eq_false hcr hd hu]
      · by_cases hb : a = '+'
        · rw [if_neg ha, if_pos hb]
          simp [digitsPart_eq_false hcr hd hu]
        · rw [if_neg ha, if_neg hb]
          simp [digitsPart_eq_false (List.mem_cons_of_mem a hcr) hd hu]

lemma unpackTwo_of_none {l : List (Option ℤ)} (h : none ∈ l) : unpackTwo l = (0, 0) := by
  rcases l with _ | ⟨x, _ | ⟨y, _ | ⟨z, rest⟩⟩⟩
  · simp at h
  · cases x <;> rfl
  · rcases x with _ | a
    · rfl
    · rcases y with _ | b
      · rfl
      · exfalso
        simp at h
  · cases x <;> cases y <;> rfl

lemma unpackTwo_of_length_ne_two {l : List (Option ℤ)} (h : l.length ≠ 2) :
    unpackTwo l = (0, 0) := by
  rcases l with _ | ⟨x, _ | ⟨y, _ | ⟨z, rest⟩⟩⟩
  · rfl
  · cases x <;> rfl
  · simp at h
  · cases x <;> cases y <;> rfl

lemma splitDash_ne_nil (g : List Char) : splitDash g ≠ [] := by
  cases g with
  | nil => simp [splitDash]
  | cons a rest =>
    by_cases ha : a = '-'
    · simp [splitDash, ha]
    · simp only [splitDash, if_neg ha]
      rcases splitDash rest with _ | ⟨p, ps⟩ <;> simp

lemma exists_piece_of_mem {g : List Char} {c : Char} (hc : c ∈ g) (hne : c ≠ '-') :
    ∃ p ∈ splitDash g, c ∈ p := by
  induction g with
  | nil => simp at hc
  | cons a rest ih =>
    rw [List.mem_cons] at hc
    by_cases ha : a = '-'
    · have hcr : c ∈ rest := by
        rcases hc with rfl | hcr
        · exact absurd ha hne
        · exact hcr
      obtain ⟨p, hp1, hp2⟩ := ih hcr
      refine ⟨p, ?_, hp2⟩
      simp only [splitDash, if_pos ha, List.mem_cons]
      exact Or.inr hp1
    · rcases hsp : splitDash rest with _ | ⟨p, ps⟩
      · exact absurd hsp (splitDash_ne_nil rest)
      · have hres : splitDash (a :: rest) = (a :: p) :: ps := by
          simp [splitDash, ha, hsp]
        rcases hc with rfl | hcr
        · exact ⟨c :: p, by rw [hres]; simp, by simp⟩
        · obtain ⟨q, hq1, hq2⟩ := ih hcr
          rw [hsp, List.mem_cons] at hq1
          rcases hq1 with rfl | hq1
          · exact ⟨a :: q, by rw [hres]; simp, by simp [hq2]⟩
          · exact ⟨q, by rw [hres]; simp [hq1], hq2⟩

lemma pyParseInt_map_has_none {g : List Char} {c : Char} (hc : c ∈ g)
    (hd : c.isDigit = false) (hm : c ≠ '-') (hp : c ≠ '+') (hu : c ≠ '_')
    (hsp : isPySpace c = false) :
    none ∈ (splitDash g).map pyParseInt := by
  obtain ⟨p, hp1, hp2⟩ := exists_piece_of_mem hc hm
  rw [List.mem_map]
  exact ⟨p, hp1, (pyParseInt_eq_none_of_bad hp2 hd hm hp hu hsp)⟩

/-- C8: a malformed range label — one containing an ASCII character that
Python `int()` never accepts (not a digit, not a sign, not an underscore
digit separator, not whitespace, and not the dash that the split consumes),
or whose dash-separated structure does not have exactly two parts —
degrades to the fallback range (0, 0) without raising, so the row is
aggregated at the level of midpoint 0. (Non-ASCII characters are excluded
from the bad-character hypothesis because `int()` accepts Unicode decimal
digits and Unicode whitespace.) -/
theorem C8_malformed_label_falls_back (g : List Char)
    (h : (∃ c ∈ g, c.toNat < 128 ∧ c.isDigit = false ∧ isPySpace c = false ∧
            c ≠ '-' ∧ c ≠ '+' ∧ c ≠ '_') ∨
         ('-' ∈ g ∧ (splitDash g).length ≠ 2)) :
    parse_exp_range g = (0, 0) ∧ rowMid g = 0 := by
  have hmain : parse_exp_range g = (0, 0) := by
    rcases h with ⟨c, hc, -, hd, hsp, hm, hp, hu⟩ | ⟨hdash, hlen⟩
    · by_cases hdash : '-' ∈ g
      · rw [parse_exp_range, if_pos hdash]
        exact unpackTwo_of_none (pyParseInt_map_has_none hc hd hm hp hu hsp)
      · rw [parse_exp_range, if_neg hdash, pyParseInt_eq_none_of_bad hc hd hm hp hu hsp]
    · rw [parse_exp_range, if_pos hdash]
      apply unpackTwo_of_length_ne_two
      rwa [List.length_map]
  refine ⟨hmain, ?_⟩
  simp [rowMid, hmain]

/-- Witness for C8 at the non-numeric label "abc". -/
theorem C8_malformed_label_falls_back_witness :
    parse_exp_range ['a', 'b', 'c'] = (0, 0) ∧ rowMid ['a', 'b', 'c'] = 0 :=
  C8_malformed_label_falls_back ['a', 'b', 'c']
    (Or.inl ⟨'a', by decide, by decide, by decide, by decide, by decide, by decide, by decide⟩)

/-! C9: bare integer labels give a degenerate range. -/

lemma allDigits_no_dash {g : List Char} (hd : allDigits g = true) : '-' ∉ g := by
  intro hmem
  have hdig := List.all_eq_true.mp hd '-' hmem
  simp at hdig

lemma isDigit_not_pyspace {c : Char} (h : c.isDigit = true) : isPySpace c = false := by
  rcases hb : isPySpace c with _ | _
  · rfl
  · exfalso
    simp only [isPySpace, Bool.or_eq_true, decide_eq_true_eq] at hb
    rcases hb with (((((((((hc | hc) | hc) | hc) | hc) | hc) | hc) | hc) | hc) | hc) <;>
      (subst hc; exact absurd h (by decide))

lemma dropWhile_eq_self_of_forall {p : Char → Bool} {l : List Char}
    (h : ∀ c ∈ l, p c = false) : l.dropWhile p = l := by
  cases l with
  | nil => rfl
  | cons a rest =>
    rw [List.dropWhile_cons, if_neg]
    rw [h a (by simp)]
    simp

lemma stripSpaces_eq_self {s : List Char} (h : ∀ c ∈ s, isPySpace c = false) :
    stripSpaces s = s := by
  unfold stripSpaces
  rw [dropWhile_eq_self_of_forall h]
  rw [dropWhile_eq_self_of_forall (fun c hcz => h c (List.mem_reverse.mp hcz))]
  exact List.reverse_reverse s

lemma digitsTailAux_of_digits {s : List Char} (h : allDigits s = true) :
    digitsTailAux false s = true := by
  induction s with
  | nil => rfl
  | cons a rest ih =>
    rw [allDigits, List.all_cons, Bool.and_eq_true] at h
    obtain ⟨ha, hrest⟩ := h
    have hau : a ≠ '_' := by
      intro hh
      subst hh
      exact absurd ha (by decide)
    simp only [digitsTailAux, if_neg hau]
    rw [ha, ih hrest]
    rfl

lemma dropUnderscores_eq_self {s : List Char} (h : allDigits s = true) :
    dropUnderscores s = s := by
  unfold dropUnderscores
  apply List.filter_eq_self.mpr
  intro c hcs
  have hcd : c.isDigit = true := by simpa using List.all_eq_true.mp h c hcs
  have hne : c ≠ '_' := by
    intro hh
    rw [hh] at hcd
    exact absurd hcd (by decide)
  simpa using hne

lemma pyParseInt_digits {g : List Char} (hne : g ≠ []) (hd : allDigits g = true) :
    pyParseInt g = some (digitsVal g) := by
  have hns : ∀ c ∈ g, isPySpace c = false := fun c hcg =>
    isDigit_not_pyspace (by simpa using List.all_eq_true.mp hd c hcg)
  have hstrip : stripSpaces g = g := stripSpaces_eq_self hns
  cases g with
  | nil => exact absurd rfl hne
  | cons a rest =>
    have ha : a.isDigit = true := by
      have := List.all_eq_true.mp hd a (by simp)
      simpa using this
    have ham : a ≠ '-' := by
      intro h
      rw [h] at ha
      simp at ha
    have hap : a ≠ '+' := by
      intro h
      rw [h] at ha
      simp at ha
    have hdp : digitsPart (a :: rest) = true := by
      have hrest : allDigits rest = true := by
        rw [allDigits, List.all_cons, Bool.and_eq_true] at hd
        exact hd.2
      simp only [digitsPart]
      rw [ha, digitsTailAux_of_digits hrest]
      rfl
    simp only [pyParseInt, hstrip, if_neg ham, if_neg hap, hdp,
      dropUnderscores_eq_self hd]
    simp

/-- C9: a label that is a bare digit string n (no dash separator) parses to
the degenerate range (n, n), its midpoint is n itself, and its count is
attributed to exp_to_level n. -/
theorem C9_bare_integer_label (g : List Char) (hne : g ≠ []) (hd : allDigits g = true) :
    parse_exp_range g = (digitsVal g, digitsVal g) ∧ rowMid g = digitsVal g ∧
      rowLevel g = exp_to_level (digitsVal g) := by
  have hnd : '-' ∉ g := allDigits_no_dash hd
  have hparse : parse_exp_range g = (digitsVal g, digitsVal g) := by
    rw [parse_exp_range, if_neg hnd, pyParseInt_digits hne hd]
  have hmid : rowMid g = digitsVal g := by
    simp only [rowMid, hparse]
    rw [show digitsVal g + digitsVal g = 2 * digitsVal g by ring]
    exact Int.mul_fdiv_cancel_left _ (by norm_num)
  refine ⟨hparse, hmid, ?_⟩
  unfold rowLevel
  rw [hmid]

/-- Witness for C9 at the bare label "42". -/
theorem C9_bare_integer_label_witness :
    parse_exp_range ['4', '2'] = (42, 42) ∧ rowMid ['4', '2'] = 42 ∧
      rowLevel ['4', '2'] = exp_to_level 42 := by
  have h := C9_bare_integer_label ['4', '2'] (by decide) (by decide)
  have hv : digitsVal ['4', '2'] = 42 := by decide
  rw [hv] at h
  exact h

/-! Numeric toolkit: rational bounds on the logarithms appearing in the
curve, derived from integer power inequalities, and comparisons of real
powers with exponent gamma = 69/20 via integer powers. -/

lemma mul_log_le_mul_log {m n p q : ℕ} (hm : 1 ≤ m) (hn : 1 ≤ n)
    (h : m ^ p ≤ n ^ q) : (p : ℝ) * Real.log m ≤ (q : ℝ) * Real.log n := by
  have hm' : (1 : ℝ) ≤ (m : ℝ) := by exact_mod_cast hm
  have hn' : (1 : ℝ) ≤ (n : ℝ) := by exact_mod_cast hn
  have hcast : ((m : ℝ)) ^ p ≤ ((n : ℝ)) ^ q := by exact_mod_cast h
  have hlog := (Real.log_le_log_iff (pow_pos (by linarith) p) (pow_pos (by linarith) q)).mpr hcast
  rwa [Real.log_pow, Real.log_pow] at hlog

lemma log501_lo : (896 : ℝ) * Real.log 2 ≤ 100 * Real.log 501 := by
  have h := mul_log_le_mul_log (m := 2) (n := 501) (p := 896) (q := 100)
    (by norm_num) (by norm_num) (by norm_num)
  push_cast at h
  exact h

lemma log501_hi : (50 : ℝ) * Real.log 501 ≤ 449 * Real.log 2 := by
  have h := mul_log_le_mul_log (m := 501) (n := 2) (p := 50) (q := 449)
    (by norm_num) (by norm_num) (by norm_num)
  push_cast at h
  exact h

lemma logcap_lo : (156 : ℝ) * Real.log 2 ≤ 10 * Real.log 50001 := by
  have h := mul_log_le_mul_log (m := 2) (n := 50001) (p := 156) (q := 10)
    (by norm_num) (by norm_num) (by norm_num)
  push_cast at h
  exact h

lemma logcap_hi : (100 : ℝ) * Real.log 50001 ≤ 1561 * Real.log 2 := by
  have h := mul_log_le_mul_log (m := 50001) (n := 2) (p := 100) (q := 1561)
    (by norm_num) (by norm_num) (by norm_num)
  push_cast at h
  exact h

lemma logcap_pos' : (0 : ℝ) < Real.log 50001 := Real.log_pos (by norm_num)

lemma ratio_lo : (896 : ℝ) / 1561 ≤ Real.log 501 / Real.log 50001 := by
  have h1 := log501_lo
  have h2 := logcap_hi
  rw [div_le_div_iff (by norm_num) logcap_pos']
  nlinarith [Real.log_pos (show (1:ℝ) < 2 by norm_num)]

lemma ratio_hi : Real.log 501 / Real.log 50001 ≤ (898 : ℝ) / 1560 := by
  have h1 := log501_hi
  have h2 := logcap_lo
  rw [div_le_div_iff logcap_pos' (by norm_num)]
  nlinarith [Real.log_pos (show (1:ℝ) < 2 by norm_num)]

lemma rpow_gamma_pow_twenty {a : ℝ} (ha : 0 ≤ a) :
    (a ^ gamma) ^ (20 : ℕ) = a ^ (69 : ℕ) := by
  rw [← Real.rpow_natCast (a ^ gamma) 20, ← Real.rpow_mul ha, ← Real.rpow_natCast a 69]
  norm_num [gamma]

lemma le_rpow_gamma {a b : ℝ} (ha : 0 ≤ a) (h : b ^ (20 : ℕ) ≤ a ^ (69 : ℕ)) :
    b ≤ a ^ gamma := by
  apply le_of_pow_le_pow_left (by norm_num : (20 : ℕ) ≠ 0) (Real.rpow_nonneg ha gamma)
  rw [rpow_gamma_pow_twenty ha]
  exact h

lemma rpow_gamma_lt {a b : ℝ} (ha : 0 ≤ a) (hb : 0 ≤ b)
    (h : a ^ (69 : ℕ) < b ^ (20 : ℕ)) : a ^ gamma < b := by
  apply lt_of_pow_lt_pow_left 20 hb
  rw [rpow_gamma_pow_twenty ha]
  exact h

/-! C6: the forward mapping at EXP 500. -/

/-- The floor of the continuous level expression at EXP 500 is 8: the
normalized log ratio lies in [896/1561, 898/1560], whose gamma powers
bracket it inside [1/7, 8/49). -/
lemma exp500_floor : ⌊(1 : ℝ) + 49 * (Real.log 501 / Real.log 50001) ^ gamma⌋ = 8 := by
  have hr_lo := ratio_lo
  have hr_hi := ratio_hi
  have hr0 : (0 : ℝ) ≤ (896 : ℝ) / 1561 := by norm_num
  have h1 : (1 : ℝ) / 7 ≤ ((896 : ℝ) / 1561) ^ gamma :=
    le_rpow_gamma (by norm_num) (by norm_num)
  have h2 : ((896 : ℝ) / 1561) ^ gamma ≤ (Real.log 501 / Real.log 50001) ^ gamma :=
    Real.rpow_le_rpow hr0 hr_lo gamma_pos.le
  have h3 : (Real.log 501 / Real.log 50001) ^ gamma ≤ ((898 : ℝ) / 1560) ^ gamma :=
    Real.rpow_le_rpow (le_trans hr0 hr_lo) hr_hi gamma_pos.le
  have h4 : ((898 : ℝ) / 1560) ^ gamma < 8 / 49 :=
    rpow_gamma_lt (by norm_num) (by norm_num) (by norm_num)
  rw [Int.floor_eq_iff]
  constructor
  · push_cast
    linarith
  · push_cast
    linarith

/-- The forward mapping at EXP 500 computes level 8. -/
lemma exp_to_level_500 : exp_to_level 500 = 8 := by
  rw [exp_to_level_of_one_le (by norm_num)]
  have hcast1 : ((500 : ℤ) : ℝ) + 1 = 501 := by norm_num
  have hcast2 : ((exp_cap : ℤ) : ℝ) + 1 = 50001 := by norm_num [exp_cap]
  rw [hcast1, hcast2, exp500_floor]
  omega

/-- C6 counterexample: the forward mapping at EXP 500 does not yield the
spec's fixed reference value 5. -/
theorem C6_counterexample_exp500_not_5 : exp_to_level 500 ≠ 5 := by
  rw [exp_to_level_500]
  norm_num

/-- C6 amended: the floor of the formula at EXP 500 is 8, so
exp_to_level 500 = 8 (not 5 as the spec's reference table states). -/
theorem C6_amended_exp500_eq_8 : exp_to_level 500 = 8 := exp_to_level_500

/-! C2: the approximate round trip. The proof brackets
exp_to_level (level_to_min_exp L) between L - 1 and L: the truncation in
level_to_min_exp lowers the continuous inverse by less than one EXP unit,
and one EXP unit moves the continuous level expression by less than 1/49 of
a level once the EXP value is at least 16. -/

lemma log17_hi : (100 : ℝ) * Real.log 17 ≤ 409 * Real.log 2 := by
  have h := mul_log_le_mul_log (m := 17) (n := 2) (p := 100) (q := 409)
    (by norm_num) (by norm_num) (by norm_num)
  push_cast at h
  exact h

lemma rpow_inv_gamma_pow {a : ℝ} (ha : 0 ≤ a) :
    (a ^ (1 / gamma)) ^ (69 : ℕ) = a ^ (20 : ℕ) := by
  rw [← Real.rpow_natCast (a ^ (1 / gamma)) 69, ← Real.rpow_mul ha, ← Real.rpow_natCast a 20]
  norm_num [gamma]

lemma le_rpow_inv_gamma {a b : ℝ} (ha : 0 ≤ a) (h : b ^ (69 : ℕ) ≤ a ^ (20 : ℕ)) :
    b ≤ a ^ (1 / gamma) := by
  apply le_of_pow_le_pow_left (by norm_num : (69 : ℕ) ≠ 0) (Real.rpow_nonneg ha _)
  rw [rpow_inv_gamma_pow ha]
  exact h

lemma u3_lo : (409 : ℝ) / 1560 ≤ ((2 : ℝ) / 49) ^ (1 / gamma) :=
  le_rpow_inv_gamma (by norm_num) (by norm_num)

lemma gamma49_le : 49 * gamma ≤ 16 * Real.log ((exp_cap : ℝ) + 1) := by
  have hcap : Real.log ((exp_cap : ℝ) + 1) = Real.log 50001 := by norm_num [exp_cap]
  rw [hcap]
  have h1 := logcap_lo
  have h2 := Real.log_two_gt_d9
  have hγ : gamma = 3.45 := rfl
  rw [hγ]
  nlinarith

/-- For levels at least 3, the continuous inverse value (before the -1 and
the truncation) is at least 17. -/
lemma T_ge_17 {L : ℤ} (h3 : 3 ≤ L) :
    (17 : ℝ) ≤ Real.exp ((((L : ℝ) - 1) / 49) ^ (1 / gamma) * Real.log ((exp_cap : ℝ) + 1)) := by
  have hcap : Real.log ((exp_cap : ℝ) + 1) = Real.log 50001 := by norm_num [exp_cap]
  have hL : (3 : ℝ) ≤ (L : ℝ) := by exact_mod_cast h3
  have hx : (2 : ℝ) / 49 ≤ ((L : ℝ) - 1) / 49 := by linarith
  have hu : ((2 : ℝ) / 49) ^ (1 / gamma) ≤ (((L : ℝ) - 1) / 49) ^ (1 / gamma) :=
    Real.rpow_le_rpow (by norm_num) hx (one_div_nonneg.mpr gamma_pos.le)
  have hu409 : (409 : ℝ) / 1560 ≤ (((L : ℝ) - 1) / 49) ^ (1 / gamma) := le_trans u3_lo hu
  have hlog17 : Real.log 17 ≤ (409 : ℝ) / 1560 * Real.log 50001 := by
    have h1 := log17_hi
    have h2 := logcap_lo
    have hl2 : (0 : ℝ) < Real.log 2 := Real.log_pos (by norm_num)
    linarith
  have hmul : Real.log 17 ≤ (((L : ℝ) - 1) / 49) ^ (1 / gamma) * Real.log 50001 :=
    le_trans hlog17 (mul_le_mul_of_nonneg_right hu409 logcap_pos'.le)
  rw [hcap]
  calc (17 : ℝ) = Real.exp (Real.log 17) := (Real.exp_log (by norm_num)).symm
  _ ≤ _ := Real.exp_le_exp.mpr hmul

/-- In the interior of the level range the inverse mapping is the floor of
the continuous inverse. -/
lemma level_to_min_exp_of_mid {L : ℤ} (h2 : 2 ≤ L) (h49 : L ≤ 49) :
    level_to_min_exp L =
      ⌊Real.exp ((((L : ℝ) - 1) / 49) ^ (1 / gamma) * Real.log ((exp_cap : ℝ) + 1)) - 1⌋ := by
  have hn1 : ¬ L ≤ 1 := by omega
  have hn50 : ¬ 50 ≤ L := by omega
  simp only [level_to_min_exp, if_neg hn1, if_neg hn50]
  apply truncInt_of_nonneg
  have hL : (2 : ℝ) ≤ (L : ℝ) := by exact_mod_cast h2
  have hx0 : (0 : ℝ) ≤ (((L : ℝ) - 1) / 49) ^ (1 / gamma) * Real.log ((exp_cap : ℝ) + 1) := by
    apply mul_nonneg _ log_cap_pos.le
    apply Real.rpow_nonneg
    linarith
  linarith [Real.add_one_le_exp ((((L : ℝ) - 1) / 49) ^ (1 / gamma) * Real.log ((exp_cap : ℝ) + 1))]

/-- Mean-value-type estimate: lowering the base of a gamma power by δ
lowers the power by at most gamma * δ, for bases in [0, 1]. -/
lemma rpow_gamma_drop {u δ b : ℝ} (hu0 : 0 < u) (hu1 : u ≤ 1) (hδ : 0 ≤ δ)
    (hb0 : 0 ≤ b) (hb : u - δ ≤ b) :
    u ^ gamma - gamma * δ ≤ b ^ gamma := by
  have hbγ : (0 : ℝ) ≤ b ^ gamma := Real.rpow_nonneg hb0 gamma
  have huγu : u ^ gamma ≤ u := by
    have h := Real.rpow_le_rpow_of_exponent_ge hu0 hu1 one_le_gamma
    rwa [Real.rpow_one] at h
  rcases le_or_lt u δ with hcase | hcase
  · have hδγ : 1 * δ ≤ gamma * δ := mul_le_mul_of_nonneg_right one_le_gamma hδ
    linarith
  · have hud : (0 : ℝ) < u - δ := by linarith
    have hstep : u ^ gamma - gamma * (u ^ gamma * (δ / u)) ≤ (u - δ) ^ gamma := by
      have hquot : δ / u < 1 := (div_lt_one hu0).mpr hcase
      have hquot0 : (0 : ℝ) ≤ δ / u := div_nonneg hδ hu0.le
      have hber : 1 + gamma * (-(δ / u)) ≤ (1 + -(δ / u)) ^ gamma :=
        one_add_mul_self_le_rpow_one_add (by linarith) one_le_gamma
      have hugpos : (0 : ℝ) < u ^ gamma := Real.rpow_pos_of_pos hu0 _
      have hprod : u ^ gamma * (1 + -(δ / u)) ^ gamma = (u - δ) ^ gamma := by
        rw [← Real.mul_rpow hu0.le (by linarith)]
        congr 1
        field_simp
        ring
      calc u ^ gamma - gamma * (u ^ gamma * (δ / u))
          = u ^ gamma * (1 + gamma * (-(δ / u))) := by ring
      _ ≤ u ^ gamma * (1 + -(δ / u)) ^ gamma := mul_le_mul_of_nonneg_left hber hugpos.le
      _ = (u - δ) ^ gamma := hprod
    have hpow1 : u ^ gamma * (δ / u) ≤ δ := by
      have hq : u ^ gamma / u ≤ 1 := by
        rw [div_le_one hu0]
        exact huγu
      calc u ^ gamma * (δ / u) = δ * (u ^ gamma / u) := by ring
      _ ≤ δ * 1 := mul_le_mul_of_nonneg_left hq hδ
      _ = δ := mul_one δ
    have hγpow : gamma * (u ^ gamma * (δ / u)) ≤ gamma * δ :=
      mul_le_mul_of_nonneg_left hpow1 gamma_pos.le
    have hmono : (u - δ) ^ gamma ≤ b ^ gamma :=
      Real.rpow_le_rpow hud.le hb gamma_pos.le
    linarith

/-- Upper half of the round trip: the forward mapping of any EXP at or
below the continuous inverse of L stays at or below L. -/
lemma roundtrip_upper {L m : ℤ} (h2 : 2 ≤ L) (hm1 : 1 ≤ m)
    (hm : (m : ℝ) ≤ Real.exp ((((L : ℝ) - 1) / 49) ^ (1 / gamma) * Real.log ((exp_cap : ℝ) + 1)) - 1) :
    exp_to_level m ≤ L := by
  rw [exp_to_level_of_one_le hm1]
  have hm1R : (1 : ℝ) ≤ (m : ℝ) := by exact_mod_cast hm1
  have hL2 : (2 : ℝ) ≤ (L : ℝ) := by exact_mod_cast h2
  have hx0 : (0 : ℝ) ≤ ((L : ℝ) - 1) / 49 := by linarith
  have hlogm : Real.log ((m : ℝ) + 1)
      ≤ (((L : ℝ) - 1) / 49) ^ (1 / gamma) * Real.log ((exp_cap : ℝ) + 1) := by
    have h1 : (m : ℝ) + 1
        ≤ Real.exp ((((L : ℝ) - 1) / 49) ^ (1 / gamma) * Real.log ((exp_cap : ℝ) + 1)) := by
      linarith
    have h2l := (Real.log_le_log_iff (by linarith) (Real.exp_pos _)).mpr h1
    rwa [Real.log_exp] at h2l
  have hbase0 : 0 ≤ Real.log ((m : ℝ) + 1) / Real.log ((exp_cap : ℝ) + 1) :=
    div_nonneg (Real.log_nonneg (by linarith)) log_cap_pos.le
  have hbase_le : Real.log ((m : ℝ) + 1) / Real.log ((exp_cap : ℝ) + 1)
      ≤ (((L : ℝ) - 1) / 49) ^ (1 / gamma) :=
    (div_le_iff log_cap_pos).mpr hlogm
  have hs : (Real.log ((m : ℝ) + 1) / Real.log ((exp_cap : ℝ) + 1)) ^ gamma
      ≤ ((((L : ℝ) - 1) / 49) ^ (1 / gamma)) ^ gamma :=
    Real.rpow_le_rpow hbase0 hbase_le gamma_pos.le
  have hxx : ((((L : ℝ) - 1) / 49) ^ (1 / gamma)) ^ gamma = ((L : ℝ) - 1) / 49 := by
    rw [← Real.rpow_mul hx0, one_div_mul_cancel (ne_of_gt gamma_pos), Real.rpow_one]
  rw [hxx] at hs
  refine le_trans (min_le_right _ _) ?_
  have hfl : ⌊(1 : ℝ) + 49 * (Real.log ((m : ℝ) + 1) / Real.log ((exp_cap : ℝ) + 1)) ^ gamma⌋
      ≤ ⌊((L : ℤ) : ℝ)⌋ := by
    apply Int.floor_le_floor
    have hid : 1 + 49 * (((L : ℝ) - 1) / 49) = (L : ℝ) := by ring
    linarith
  simpa using hfl

/-- Lower half of the round trip: once the truncated inverse is at least
16, the forward mapping stays at or above L - 1. -/
lemma roundtrip_lower {L m : ℤ} (h3 : 3 ≤ L) (h49 : L ≤ 49)
    (hm_gt : Real.exp ((((L : ℝ) - 1) / 49) ^ (1 / gamma) * Real.log ((exp_cap : ℝ) + 1)) - 2 < (m : ℝ))
    (hm16 : 16 ≤ m) :
    L - 1 ≤ exp_to_level m := by
  have hm1 : (1 : ℤ) ≤ m := by omega
  rw [exp_to_level_of_one_le hm1]
  have hL3 : (3 : ℝ) ≤ (L : ℝ) := by exact_mod_cast h3
  have hL49 : (L : ℝ) ≤ 49 := by exact_mod_cast h49
  have hlCpos := log_cap_pos
  have hx0 : (0 : ℝ) < ((L : ℝ) - 1) / 49 := div_pos (by linarith) (by norm_num)
  have hx1 : ((L : ℝ) - 1) / 49 ≤ 1 := by
    rw [div_le_one (by norm_num)]
    linarith
  have hu0 : (0 : ℝ) < (((L : ℝ) - 1) / 49) ^ (1 / gamma) := Real.rpow_pos_of_pos hx0 _
  have hu1 : (((L : ℝ) - 1) / 49) ^ (1 / gamma) ≤ 1 :=
    Real.rpow_le_one hx0.le hx1 (one_div_nonneg.mpr gamma_pos.le)
  have hT17 := T_ge_17 h3
  set lC : ℝ := Real.log ((exp_cap : ℝ) + 1) with hlCdef
  set u : ℝ := (((L : ℝ) - 1) / 49) ^ (1 / gamma) with hudef
  set T : ℝ := Real.exp (u * lC) with hTdef
  refine le_min (by omega) ?_
  rw [Int.le_floor]
  have hm16R : (16 : ℝ) ≤ (m : ℝ) := by exact_mod_cast hm16
  have hT1pos : (0 : ℝ) < T - 1 := by linarith
  have hTm : T - 1 ≤ (m : ℝ) + 1 := by linarith
  have hlog1 : Real.log (T - 1) ≤ Real.log ((m : ℝ) + 1) :=
    (Real.log_le_log_iff hT1pos (by linarith)).mpr hTm
  have hTpos : (0 : ℝ) < T := by linarith
  have hwpos : (0 : ℝ) < 1 - 1 / T := by
    have h17 : (1 : ℝ) / T ≤ 1 / 17 :=
      one_div_le_one_div_of_le (by norm_num) hT17
    linarith
  have hlogT : Real.log T = u * lC := by
    rw [hTdef]
    exact Real.log_exp _
  have hsplit : Real.log (T - 1) = u * lC + Real.log (1 - 1 / T) := by
    have hw : T - 1 = T * (1 - 1 / T) := by field_simp
    rw [hw, Real.log_mul (ne_of_gt hTpos) (ne_of_gt hwpos), hlogT]
  have hneg : -Real.log (1 - 1 / T) ≤ 1 / (T - 1) := by
    have hfrac : (0 : ℝ) < T / (T - 1) := div_pos hTpos hT1pos
    have hlog2 := Real.log_le_sub_one_of_pos hfrac
    have hinv : Real.log (1 - 1 / T) = -Real.log (T / (T - 1)) := by
      rw [← Real.log_inv]
      congr 1
      field_simp
    have heq : T / (T - 1) - 1 = 1 / (T - 1) := by
      field_simp
    rw [hinv, neg_neg]
    linarith
  have hbase' : u - 1 / ((T - 1) * lC) ≤ Real.log ((m : ℝ) + 1) / lC := by
    rw [le_div_iff hlCpos]
    have hexpand : (u - 1 / ((T - 1) * lC)) * lC = u * lC - 1 / (T - 1) := by
      field_simp
      ring
    rw [hexpand]
    linarith
  have hbase0 : (0 : ℝ) ≤ Real.log ((m : ℝ) + 1) / lC :=
    div_nonneg (Real.log_nonneg (by linarith)) hlCpos.le
  have hδ0 : (0 : ℝ) ≤ 1 / ((T - 1) * lC) :=
    (div_pos one_pos (mul_pos hT1pos hlCpos)).le
  have hdrop := rpow_gamma_drop hu0 hu1 hδ0 hbase0 hbase'
  have hugam : u ^ gamma = ((L : ℝ) - 1) / 49 := by
    rw [hudef, ← Real.rpow_mul hx0.le, one_div_mul_cancel (ne_of_gt gamma_pos), Real.rpow_one]
  rw [hugam] at hdrop
  have hγδ : gamma * (1 / ((T - 1) * lC)) ≤ 1 / 49 := by
    have h49γ := gamma49_le
    have h16lC : (16 : ℝ) * lC ≤ (T - 1) * lC :=
      mul_le_mul_of_nonneg_right (by linarith) hlCpos.le
    have hT1lC : (0 : ℝ) < (T - 1) * lC := mul_pos hT1pos hlCpos
    rw [mul_one_div, div_le_div_iff hT1lC (by norm_num : (0 : ℝ) < 49)]
    linarith
  push_cast
  linarith

/-- C2: for every level L in [2,49] the round trip through the truncated
inverse differs from L by at most 1. -/
theorem C2_roundtrip_within_one (L : ℤ) (h2 : 2 ≤ L) (h49 : L ≤ 49) :
    |exp_to_level (level_to_min_exp L) - L| ≤ 1 := by
  have hm_eq := level_to_min_exp_of_mid h2 h49
  have hres1 : 1 ≤ exp_to_level (level_to_min_exp L) := one_le_exp_to_level _
  have hm_le : ((level_to_min_exp L : ℤ) : ℝ)
      ≤ Real.exp ((((L : ℝ) - 1) / 49) ^ (1 / gamma) * Real.log ((exp_cap : ℝ) + 1)) - 1 := by
    rw [hm_eq]
    exact Int.floor_le _
  rcases le_or_lt (level_to_min_exp L) 0 with hm0 | hm1
  · have hres : exp_to_level (level_to_min_exp L) = 1 := by
      have hmax : max (level_to_min_exp L) 0 = 0 := max_eq_right hm0
      simp [exp_to_level, hmax]
    rcases eq_or_lt_of_le h2 with hL2 | hL3
    · rw [hres, ← hL2]
      norm_num
    · exfalso
      have h3 : 3 ≤ L := by omega
      have hT17 := T_ge_17 h3
      have h16 : (16 : ℤ) ≤ level_to_min_exp L := by
        rw [hm_eq]
        apply Int.le_floor.mpr
        push_cast
        linarith
      omega
  · have hup := roundtrip_upper h2 hm1 hm_le
    rcases eq_or_lt_of_le h2 with hL2 | hL3
    · rw [abs_le]
      constructor <;> omega
    · have h3 : 3 ≤ L := by omega
      have hT17 := T_ge_17 h3
      have hm16 : (16 : ℤ) ≤ level_to_min_exp L := by
        rw [hm_eq]
        apply Int.le_floor.mpr
        push_cast
        linarith
      have hm_gt : Real.exp ((((L : ℝ) - 1) / 49) ^ (1 / gamma) * Real.log ((exp_cap : ℝ) + 1)) - 2
          < ((level_to_min_exp L : ℤ) : ℝ) := by
        rw [hm_eq]
        have hfl := Int.sub_one_lt_floor
          (Real.exp ((((L : ℝ) - 1) / 49) ^ (1 / gamma) * Real.log ((exp_cap : ℝ) + 1)) - 1)
        linarith
      have hlo := roundtrip_lower h3 h49 hm_gt hm16
      rw [abs_le]
      constructor <;> omega

/-- Witness for C2 at level 2. -/
theorem C2_roundtrip_within_one_witness :
    |exp_to_level (level_to_min_exp 2) - 2| ≤ 1 :=
  C2_roundtrip_within_one 2 (by norm_num) (by norm_num)

end KlpbbsLevels
